import Mathlib

/-!
Verification development for the client-side ranking aggregation engine of
the elite-cheer-stats dashboard (src/app/rankings/page.tsx, second module
section, lines 379-955).

The JavaScript source is shallowly embedded: strings are Lean `String`
(manipulated through executable character-list functions mirroring the JS
string methods used by the source), JS numbers carrying scores are `ℚ`,
and a raw result row is a structure whose fields hold the values the
source extracts from the loosely-typed row via its `pick` helper.  JS
`Map` objects (which preserve key-insertion order) are embedded as
insertion-ordered association lists.
-/

namespace EliteCheer

/-- JS whitespace class `\s` restricted to the characters that occur in the
data this page processes (space, tab, newline, carriage return). -/
def isWsChar (c : Char) : Bool :=
  c = ' ' || c = '\t' || c = '\n' || c = '\r'

/-- JS word-character class `\w` = `[A-Za-z0-9_]`, used for the `\b`
boundary in the level regex and for `titleCase`. -/
def isWordChar (c : Char) : Bool :=
  ('a' ≤ c && c ≤ 'z') || ('A' ≤ c && c ≤ 'Z') || ('0' ≤ c && c ≤ '9') || c = '_'

/-- `String.prototype.trim`: drop leading and trailing whitespace. -/
def trimList (l : List Char) : List Char :=
  ((l.dropWhile isWsChar).reverse.dropWhile isWsChar).reverse

/-- `String.prototype.trim` on `String`. -/
def trimStr (s : String) : String := ⟨trimList s.data⟩

/-- `replace(/\s+/g, " ")`: collapse every maximal whitespace run to one
space. -/
def collapseWs : List Char → List Char
  | [] => []
  | [c] => if isWsChar c then [' '] else [c]
  | c :: c' :: cs =>
    if isWsChar c then
      if isWsChar c' then collapseWs (c' :: cs)
      else ' ' :: collapseWs (c' :: cs)
    else c :: collapseWs (c' :: cs)

/-- Source `normalize`: `String(s ?? "").trim().toLowerCase().replace(/\s+/g, " ")`. -/
def normalize (s : String) : String :=
  ⟨collapseWs ((trimList s.data).map Char.toLower)⟩

/-- Does `needle` occur at the head of `hay`? (helper for `.includes`). -/
def startsWithList : List Char → List Char → Bool
  | _, [] => true
  | [], _ :: _ => false
  | h :: hs, n :: ns => h = n && startsWithList hs ns

/-- Does `needle` occur contiguously anywhere in `hay`?
(`String.prototype.includes`). -/
def containsList (needle : List Char) : List Char → Bool
  | [] => needle.isEmpty
  | c :: rest => startsWithList (c :: rest) needle || containsList needle rest

/-- `hay.includes(needle)` on `String`. -/
def includesStr (hay needle : String) : Bool := containsList needle.data hay.data

/-- The five team-size categories (`SizeOpt` minus `"Any"`). -/
inductive Size where
  | XSmall
  | Small
  | Medium
  | Large
  | XLarge
deriving DecidableEq

/-- The display string of a size category, as the source spells it. -/
def Size.label : Size → String
  | .XSmall => "X-Small"
  | .Small => "Small"
  | .Medium => "Medium"
  | .Large => "Large"
  | .XLarge => "X-Large"

/-- Source `cleanSizeAny`: normalize, convert hyphens to spaces, collapse
whitespace, trim, then exact-match against the size vocabulary. -/
def cleanSizeAny (v : String) : Option Size :=
  let s0 := normalize v
  if s0 = "" then none
  else
    let s := trimStr ⟨collapseWs (s0.data.map (fun c => if c = '-' then ' ' else c))⟩
    if s = "x small" || s = "xsmall" then some .XSmall
    else if s = "small" then some .Small
    else if s = "medium" then some .Medium
    else if s = "large" then some .Large
    else if s = "x large" || s = "xlarge" then some .XLarge
    else none

/-- Source `inferSizeFromDivision`: substring search over the normalized
division text, X-sizes first. -/
def inferSizeFromDivision (divisionRaw : String) : Option Size :=
  let d := normalize divisionRaw
  if includesStr d "x-small" || includesStr d "x small" || includesStr d "xsmall" then some .XSmall
  else if includesStr d "x-large" || includesStr d "x large" || includesStr d "xlarge" then some .XLarge
  else if includesStr d " small" then some .Small
  else if includesStr d " medium" then some .Medium
  else if includesStr d " large" then some .Large
  else none

/-- Source `inferIsD2FromDivision`: `d.includes(" d2") || d.includes("d2 ")`
on the normalized division text. -/
def inferIsD2FromDivision (divisionRaw : String) : Bool :=
  let d := normalize divisionRaw
  includesStr d " d2" || includesStr d "d2 "

/-- Source `inferIsFlexFromDivision`: `d.includes(" flex")` on the
normalized division text. -/
def inferIsFlexFromDivision (divisionRaw : String) : Bool :=
  let d := normalize divisionRaw
  includesStr d " flex"

/-- Source `inferLevelFromDivision`: regex `/^\s*L\s*([1-7])\b/i`; returns
`L` plus the digit, or null. -/
def inferLevelFromDivision (divisionRaw : String) : Option String :=
  match divisionRaw.data.dropWhile isWsChar with
  | [] => none
  | c :: rest =>
    if c = 'L' || c = 'l' then
      match rest.dropWhile isWsChar with
      | [] => none
      | d1 :: rest2 =>
        if '1' ≤ d1 && d1 ≤ '7' then
          match rest2 with
          | [] => some ⟨['L', d1]⟩
          | c2 :: _ => if isWordChar c2 then none else some ⟨['L', d1]⟩
        else none
    else none

/-- Source `inferAgeFromDivision`: first containment match over the fixed
age vocabulary, on the normalized division text. -/
def inferAgeFromDivision (divisionRaw : String) : Option String :=
  let d := normalize divisionRaw
  if includesStr d "tiny" then some "Tiny"
  else if includesStr d "mini" then some "Mini"
  else if includesStr d "youth" then some "Youth"
  else if includesStr d "junior" then some "Junior"
  else if includesStr d "senior" then some "Senior"
  else if includesStr d "u16" then some "U16"
  else if includesStr d "u18" then some "U18"
  else if includesStr d "open" then some "Open"
  else none

/-- `replace(/\b\w/g, toUpperCase)`: uppercase each word character that
follows a non-word position; the flag records whether the previous
character was a word character. -/
def titleCaseList : Bool → List Char → List Char
  | _, [] => []
  | prevWord, c :: cs =>
    if isWordChar c then
      (if prevWord then c else c.toUpper) :: titleCaseList true cs
    else c :: titleCaseList false cs

/-- Source `titleCase`: normalize then uppercase the first letter of each
word. -/
def titleCase (s : String) : String :=
  let t := normalize s
  if t = "" then "" else ⟨titleCaseList false t.data⟩

/-- One raw result row, holding the values the source reads from the
loosely-typed row.  String fields hold `String(pick(r, keys, ""))` for the
respective candidate-key list (the first present, non-null value whose
string form is non-empty after trimming; `""` when none is usable).
`score` holds the finite numeric coercion of `pick(r, eventScoreKeys, 0)`:
`none` encodes a picked value whose `Number(...)` coercion is not finite
(`NaN`/infinite); a missing score field picks the fallback `0`, i.e.
`some 0`.  `is_d2`/`is_flex` are `none` when the column is
null/undefined. -/
structure Row where
  program : String := ""
  team : String := ""
  division : String := ""
  age_bucket : String := ""
  is_d2 : Option Bool := none
  is_flex : Option Bool := none
  size_effective : String := ""
  size_raw : String := ""
  size_field : String := ""
  team_id : String := ""
  program_id : String := ""
  score : Option ℚ := some 0
  event_id : String := ""
  weekend : String := ""
  event_name : String := ""
  source_url : String := ""
deriving DecidableEq

/-- Source `toNum` applied to the picked score value: `Number.isFinite(n)
? n : 0`; the non-finite case (`none`) yields `0`. -/
def toNum (v : Option ℚ) : ℚ :=
  match v with
  | some n => n
  | none => 0

/-- Result of source `parseMeta`. -/
structure Meta where
  division : String
  level : Option String
  age : Option String
  isD2 : Bool
  isFlex : Bool
  size : Option Size
deriving DecidableEq

/-- Source `parseMeta`: derive division, level, age, flags and size from a
row, falling back to free-text parsing of the division string. -/
def parseMeta (r : Row) : Meta :=
  let division := r.division
  let level := inferLevelFromDivision division
  let age := if r.age_bucket ≠ "" then some (titleCase r.age_bucket)
             else inferAgeFromDivision division
  let isD2 := match r.is_d2 with
    | some b => b
    | none => inferIsD2FromDivision division
  let isFlex := match r.is_flex with
    | some b => b
    | none => inferIsFlexFromDivision division
  let size := cleanSizeAny r.size_effective <|> cleanSizeAny r.size_raw <|>
              cleanSizeAny r.size_field <|> inferSizeFromDivision division
  ⟨division, level, age, isD2, isFlex, size⟩

/-- Source `buildTrackKey`: concatenate the present parts of
(level, age, "Flex", "D2"), joined by single spaces. -/
def buildTrackKey (meta : Meta) : String :=
  let parts : List String :=
    (match meta.level with | some l => [l] | none => [])
    ++ (match meta.age with | some a => if a = "" then [] else [a] | none => [])
    ++ (if meta.isFlex then ["Flex"] else [])
    ++ (if meta.isD2 then ["D2"] else [])
  trimStr (String.intercalate " " parts)

/-- One (weekend, observed size) history entry, as pushed into
`rowsByWeekendDesc`. -/
structure SizeObs where
  weekend : String
  size : Option Size
deriving DecidableEq

/-- First fallback tier of source `resolveTeamSize`:
`rowsDescByDate.find((x) => !!x.size)?.size ?? null`. -/
def sizeTier1 (rowsDescByDate : List SizeObs) : Option Size :=
  (rowsDescByDate.find? (fun x => x.size.isSome)).bind (fun x => x.size)

/-- Second fallback tier of source `resolveTeamSize` (`anyKnown`), written
in the source as the same scan as the first tier. -/
def sizeTier2 (rowsDescByDate : List SizeObs) : Option Size :=
  (rowsDescByDate.find? (fun x => x.size.isSome)).bind (fun x => x.size)

/-- Source `resolveTeamSize`: return the first tier's value when non-null,
else the second tier's. -/
def resolveTeamSize (rowsDescByDate : List SizeObs) : Option Size :=
  match sizeTier1 rowsDescByDate with
  | some s => some s
  | none => sizeTier2 rowsDescByDate

/-- Source `D2Mode`. -/
inductive D2Mode where
  | Any
  | D2Only
  | NonD2Only
deriving DecidableEq

/-- Source `FlexMode`. -/
inductive FlexMode where
  | Any
  | FlexOnly
  | NonFlexOnly
deriving DecidableEq

/-- Source `Filters`; `size = none` encodes the `"Any"` value of
`SizeOpt`, `some s` a concrete size filter. -/
structure Filters where
  search : String
  level : String
  age : String
  d2Mode : D2Mode
  flexMode : FlexMode
  size : Option Size
  requireTwoPlus : Bool
deriving DecidableEq

/-- Source `DEFAULT_FILTERS`. -/
def DEFAULT_FILTERS : Filters :=
  ⟨"", "All", "All", .Any, .Any, none, true⟩

/-- `String(pick(r, programKeys, "")).trim()`. -/
def programOf (r : Row) : String := trimStr r.program

/-- `String(pick(r, teamKeys, "")).trim()`. -/
def teamOf (r : Row) : String := trimStr r.team

/-- `buildTrackKey(parseMeta(r))`. -/
def trackOf (r : Row) : String := buildTrackKey (parseMeta r)

/-- `String(r.team_id ?? "").trim()`. -/
def teamIdOf (r : Row) : String := trimStr r.team_id

/-- `String(r.program_id ?? "").trim()`. -/
def programIdOf (r : Row) : String := trimStr r.program_id

/-- `String(pick(r, eventIdKeys, "")).trim()`. -/
def eventIdOf (r : Row) : String := trimStr r.event_id

/-- `String(pick(r, weekendKeys, "")).trim()`. -/
def weekendOf (r : Row) : String := trimStr r.weekend

/-- `String(pick(r, eventNameKeys, "")).trim()`. -/
def eventNameOf (r : Row) : String := trimStr r.event_name

/-- `String(pick(r, sourceUrlKeys, "")).trim()`. -/
def sourceUrlOf (r : Row) : String := trimStr r.source_url

/-- `toNum(pick(r, eventScoreKeys, 0))`. -/
def scoreOf (r : Row) : ℚ := toNum r.score

/-- The source's group key: `` `${teamId}__${track}` `` when a team id is
present, else `` `${programId || normalize(program)}__${normalize(team)}__${track}` ``. -/
def groupKeyOf (r : Row) : String :=
  if teamIdOf r ≠ "" then teamIdOf r ++ "__" ++ trackOf r
  else (if programIdOf r ≠ "" then programIdOf r else normalize (programOf r))
       ++ "__" ++ normalize (teamOf r) ++ "__" ++ trackOf r

/-- The source's competition key: event id when non-empty, else source
URL when non-empty, else event name plus weekend. -/
def compKeyOf (r : Row) : String :=
  if eventIdOf r ≠ "" then "event:" ++ eventIdOf r
  else if sourceUrlOf r ≠ "" then "url:" ++ sourceUrlOf r
  else "name:" ++ eventNameOf r ++ "__wk:" ++ weekendOf r

/-- A row takes part in the aggregation loop body iff the two `continue`
guards (`!program || !team`, `!track`) do not fire. -/
def includedRow (r : Row) : Bool :=
  programOf r != "" && teamOf r != "" && trackOf r != ""

/-- The per-group accumulator `Agg` of the source. -/
structure Agg where
  key : String
  program : String
  team : String
  track : String
  compScores : List (String × ℚ)
  rowsByWeekendDesc : List SizeObs
deriving DecidableEq

/-- `Map.prototype.get` on an insertion-ordered association list. -/
def alGet {β : Type} : List (String × β) → String → Option β
  | [], _ => none
  | (k', v) :: rest, k => if k' = k then some v else alGet rest k

/-- `Map.prototype.set`: update in place when the key exists (keeping its
insertion position), else append. -/
def alSet {β : Type} : List (String × β) → String → β → List (String × β)
  | [], k, v => [(k, v)]
  | (k', v') :: rest, k, v =>
    if k' = k then (k, v) :: rest else (k', v') :: alSet rest k v

/-- The dedupe step: `if (prev === undefined || score > prev)
agg.compScores.set(compKey, score)`. -/
def dedupeSet (cs : List (String × ℚ)) (ck : String) (score : ℚ) : List (String × ℚ) :=
  match alGet cs ck with
  | none => alSet cs ck score
  | some prev => if prev < score then alSet cs ck score else cs

/-- One iteration of the aggregation loop of `teamRankings` (lines
654-690): skip rows with unusable identity or empty track, else create or
update the group for the row's group key, deduping the score by
competition key and pushing the (weekend, size) observation. -/
def step (m : List (String × Agg)) (r : Row) : List (String × Agg) :=
  if includedRow r then
    let gk := groupKeyOf r
    let ck := compKeyOf r
    let obs : SizeObs := ⟨weekendOf r, (parseMeta r).size⟩
    match alGet m gk with
    | none => m ++ [(gk, ⟨gk, programOf r, teamOf r, trackOf r, [(ck, scoreOf r)], [obs]⟩)]
    | some a =>
      alSet m gk { a with
        compScores := dedupeSet a.compScores ck (scoreOf r),
        rowsByWeekendDesc := a.rowsByWeekendDesc ++ [obs] }
  else m

/-- The whole aggregation loop: fold the rows into the insertion-ordered
group map. -/
def buildAgg (rows : List Row) : List (String × Agg) := rows.foldl step []

/-- Code-point lexicographic strictly-less on character lists, the
embedding of the `localeCompare` order for the ISO date strings the sort
sees. -/
def lexLtChars : List Char → List Char → Bool
  | [], [] => false
  | [], _ :: _ => true
  | _ :: _, [] => false
  | a :: as, b :: bs =>
    if a < b then true else if b < a then false else lexLtChars as bs

/-- Strictly-less on strings via `lexLtChars`. -/
def strLtB (s t : String) : Bool := lexLtChars s.data t.data

/-- Stable insertion for the descending-by-weekend sort
`(x, y) => (y.weekend || "").localeCompare(x.weekend || "")`. -/
def insertObsDesc (e : SizeObs) : List SizeObs → List SizeObs
  | [] => [e]
  | a :: rest =>
    if strLtB e.weekend a.weekend then a :: insertObsDesc e rest
    else e :: a :: rest

/-- Stable descending-by-weekend sort (JS `Array.prototype.sort` is
stable). -/
def sortByWeekendDesc : List SizeObs → List SizeObs
  | [] => []
  | x :: xs => insertObsDesc x (sortByWeekendDesc xs)

/-- One output row of `teamRankings`. -/
structure RankEntry where
  key : String
  program : String
  team : String
  bucket : String
  size_final : Option Size
  avg : ℚ
  comps : ℕ
deriving DecidableEq

/-- The map body of lines 692-712: sort the size history, resolve the
final size, average the deduped competition scores (`0` when there are
none), and build the display bucket. -/
def toEntry (a : Agg) : RankEntry :=
  let rowsSorted := sortByWeekendDesc a.rowsByWeekendDesc
  let sizeFinal := resolveTeamSize rowsSorted
  let scores := a.compScores.map (fun p => p.2)
  let comps := scores.length
  let avg : ℚ := if comps = 0 then 0 else (scores.foldl (fun x y => x + y) 0) / comps
  let bucket := match sizeFinal with
    | some s => a.track ++ " " ++ s.label
    | none => a.track
  ⟨a.key, a.program, a.team, bucket, sizeFinal, avg, comps⟩

/-- `teamRankings` up to but excluding the final sort: build the group
map, map each group to its output row, then apply the minimum-events
filter and the team-level size filter. -/
def rankingsPreSort (filteredRows : List Row) (filters : Filters) : List RankEntry :=
  let m := buildAgg filteredRows
  let out0 := m.map (fun p => toEntry p.2)
  let out1 := if filters.requireTwoPlus then out0.filter (fun x => decide (2 ≤ x.comps)) else out0
  match filters.size with
  | none => out1
  | some s =>
    out1.filter (fun x =>
      match x.size_final with
      | none => false
      | some sf => normalize sf.label == normalize s.label)

/-- Stable insertion for the final `out.sort((x, y) => y.avg - x.avg)`. -/
def insertByAvgDesc (e : RankEntry) : List RankEntry → List RankEntry
  | [] => [e]
  | a :: rest =>
    if a.avg ≤ e.avg then e :: a :: rest
    else a :: insertByAvgDesc e rest

/-- Stable descending-by-average sort. -/
def sortByAvgDesc : List RankEntry → List RankEntry
  | [] => []
  | x :: xs => insertByAvgDesc x (sortByAvgDesc xs)

/-- The full `teamRankings` computation (lines 642-724). -/
def teamRankings (filteredRows : List Row) (filters : Filters) : List RankEntry :=
  sortByAvgDesc (rankingsPreSort filteredRows filters)

/-- The scores contributed to group `gk`, competition `ck`: every
aggregated row sharing that group key and competition key, coerced through
`toNum`. -/
def matchScores (rows : List Row) (gk ck : String) : List ℚ :=
  (rows.filter (fun r => includedRow r && groupKeyOf r == gk && compKeyOf r == ck)).map scoreOf

/-- Maximum of a list of rationals (`0` for the empty list, which the
development only ever uses on non-empty lists). -/
def listMax : List ℚ → ℚ
  | [] => 0
  | [x] => x
  | x :: y :: ys => max x (listMax (y :: ys))

/-- The size-resolution rule as the spec words it: scan most recent to
oldest, return the first non-null size, else null. -/
def specResolveSize : List SizeObs → Option Size
  | [] => none
  | o :: rest =>
    match o.size with
    | some s => some s
    | none => specResolveSize rest

/-- Split a character list on single spaces (the normalized texts this is
applied to have collapsed whitespace). -/
def splitOnSpace : List Char → List (List Char)
  | [] => [[]]
  | c :: rest =>
    match splitOnSpace rest with
    | [] => [[c]]
    | t :: ts => if c = ' ' then [] :: t :: ts else (c :: t) :: ts

/-- The spec's "contains the token as a separate word" reading: the word
is one of the space-separated tokens of the normalized text. -/
def containsWord (w s : String) : Bool :=
  (splitOnSpace (normalize s).data).any (fun t => t == w.data)

/-! ### Concrete inputs used to exercise the theorems -/

def c1rowA : Row :=
  { program := "Prog", team := "Alpha", division := "L3 Junior",
    event_id := "evt-1", weekend := "2026-01-10", score := some 9 }

def c1rowB : Row :=
  { program := "Prog", team := "Alpha", division := "L3 Junior",
    event_id := "evt-2", weekend := "2026-01-17", score := some 8 }

def c1agg : Agg :=
  ⟨"prog__alpha__L3 Junior", "Prog", "Alpha", "L3 Junior",
   [("event:evt-1", 9), ("event:evt-2", 8)],
   [⟨"2026-01-10", none⟩, ⟨"2026-01-17", none⟩]⟩

/-- A row whose score value has no finite numeric coercion. -/
def c2row : Row :=
  { program := "Prog", team := "Tee", division := "L3 Junior",
    event_id := "evt-9", weekend := "2026-01-10", score := none }

def c2agg : Agg :=
  ⟨"prog__tee__L3 Junior", "Prog", "Tee", "L3 Junior",
   [("event:evt-9", 0)], [⟨"2026-01-10", none⟩]⟩

def c2filters : Filters := { DEFAULT_FILTERS with requireTwoPlus := false }

def c3row1 : Row :=
  { program := "Prog", team := "T1", team_id := "T1", division := "L3 Junior",
    event_id := "evt-42", weekend := "2026-01-10",
    score := some ⟨91, 10, by decide, by decide⟩ }

def c3row2 : Row :=
  { program := "Prog", team := "T1", team_id := "T1", division := "L3 Junior",
    event_id := "evt-42", weekend := "2026-01-10",
    score := some ⟨47, 5, by decide, by decide⟩ }

def c3agg : Agg :=
  ⟨"T1__L3 Junior", "Prog", "T1", "L3 Junior",
   [("event:evt-42", ⟨47, 5, by decide, by decide⟩)],
   [⟨"2026-01-10", none⟩, ⟨"2026-01-10", none⟩]⟩

def c4hist1 : List SizeObs :=
  [⟨"2026-02-01", none⟩, ⟨"2026-01-15", some .Small⟩, ⟨"2026-01-01", some .Medium⟩]

def c4hist2 : List SizeObs := [⟨"2026-02-01", none⟩, ⟨"2026-01-15", none⟩]

def c5row1 : Row :=
  { program := "Prog", team := "Sm", division := "L3 Junior", size_effective := "Small",
    event_id := "e1", weekend := "2026-01-10", score := some 9 }

def c5row2 : Row :=
  { program := "Prog", team := "Sm", division := "L3 Junior", size_effective := "Small",
    event_id := "e2", weekend := "2026-01-17", score := some 8 }

def c5agg : Agg :=
  ⟨"prog__sm__L3 Junior", "Prog", "Sm", "L3 Junior",
   [("event:e1", 9), ("event:e2", 8)],
   [⟨"2026-01-10", some .Small⟩, ⟨"2026-01-17", some .Small⟩]⟩

def c5filters : Filters := { DEFAULT_FILTERS with size := some .Small }

def c6row : Row :=
  { program := "Prog", team := "Solo", division := "L4 Senior",
    event_id := "e1", weekend := "2026-01-10", score := some 7 }

def c6agg : Agg :=
  ⟨"prog__solo__L4 Senior", "Prog", "Solo", "L4 Senior",
   [("event:e1", 7)], [⟨"2026-01-10", none⟩]⟩

def c6filters : Filters := { DEFAULT_FILTERS with requireTwoPlus := false }

def c8badRow : Row := { program := "P", team := "T", division := "" }

def c8goodRow : Row :=
  { program := "Pr", team := "Tm", division := "L2 Youth",
    event_id := "e1", weekend := "2026-01-03", score := some 5 }

def c8agg : Agg :=
  ⟨"pr__tm__L2 Youth", "Pr", "Tm", "L2 Youth",
   [("event:e1", 5)], [⟨"2026-01-03", none⟩]⟩

def c8filters : Filters := { DEFAULT_FILTERS with requireTwoPlus := false }

def c9rowA : Row :=
  { program := "PA", team := "Ay", division := "L5 Open",
    event_id := "a1", weekend := "2026-01-10", score := some 9 }

def c9rowB : Row :=
  { program := "PB", team := "Bee", division := "L5 Open",
    event_id := "b1", weekend := "2026-01-10", score := some 9 }

def c9aggA : Agg :=
  ⟨"pa__ay__L5 Open", "PA", "Ay", "L5 Open",
   [("event:a1", 9)], [⟨"2026-01-10", none⟩]⟩

def c9aggB : Agg :=
  ⟨"pb__bee__L5 Open", "PB", "Bee", "L5 Open",
   [("event:b1", 9)], [⟨"2026-01-10", none⟩]⟩

def c9filters : Filters := { DEFAULT_FILTERS with requireTwoPlus := false }

def c10row : Row :=
  { program := "Px", team := "Tx", division := "L1 Tiny",
    event_id := "e1", weekend := "2026-01-10", score := some 6 }

def c10agg : Agg :=
  ⟨"px__tx__L1 Tiny", "Px", "Tx", "L1 Tiny",
   [("event:e1", 6)], [⟨"2026-01-10", none⟩]⟩

def c10filters : Filters := { DEFAULT_FILTERS with requireTwoPlus := false }

/-! ### Association-list lemmas -/

theorem alGet_alSet_self {β : Type} (l : List (String × β)) (k : String) (v : β) :
    alGet (alSet l k v) k = some v := by
  induction l with
  | nil => simp [alGet, alSet]
  | cons p rest ih =>
    by_cases h : p.1 = k
    · simp [alSet, alGet, h]
    · simp [alSet, alGet, h, ih]

theorem alGet_alSet_ne {β : Type} (l : List (String × β)) {k k' : String} (v : β)
    (h : k' ≠ k) : alGet (alSet l k v) k' = alGet l k' := by
  have hne : k ≠ k' := fun h' => h h'.symm
  induction l with
  | nil => simp [alGet, alSet, hne]
  | cons p rest ih =>
    obtain ⟨pk, pv⟩ := p
    by_cases hk : pk = k
    · subst hk
      have hpk : pk ≠ k' := hne
      simp [alSet, alGet, hpk]
    · by_cases hk' : pk = k'
      · simp [alSet, alGet, hk, hk', h]
      · simp [alSet, alGet, hk, hk', ih]

theorem alGet_append {β : Type} (l₁ l₂ : List (String × β)) (k : String) :
    alGet (l₁ ++ l₂) k =
      match alGet l₁ k with
      | some v => some v
      | none => alGet l₂ k := by
  induction l₁ with
  | nil => simp [alGet]
  | cons p rest ih =>
    by_cases h : p.1 = k
    · simp [alGet, h]
    · simp [alGet, h, ih]

theorem alGet_isSome_iff {β : Type} (l : List (String × β)) (k : String) :
    (alGet l k).isSome = true ↔ k ∈ l.map (fun p => p.1) := by
  induction l with
  | nil => simp [alGet]
  | cons p rest ih =>
    by_cases h : p.1 = k
    · simp [alGet, h]
    · simp [alGet, h, ih, Ne.symm h]

theorem alGet_eq_none_iff {β : Type} (l : List (String × β)) (k : String) :
    alGet l k = none ↔ k ∉ l.map (fun p => p.1) := by
  rw [← alGet_isSome_iff]
  cases alGet l k <;> simp

theorem alGet_mem {β : Type} {l : List (String × β)} {k : String} {v : β}
    (h : alGet l k = some v) : (k, v) ∈ l := by
  induction l with
  | nil => simp [alGet] at h
  | cons p rest ih =>
    obtain ⟨pk, pv⟩ := p
    by_cases hk : pk = k
    · subst hk
      simp [alGet] at h
      subst h
      exact List.mem_cons_self _ _
    · simp [alGet, hk] at h
      exact List.mem_cons_of_mem _ (ih h)

theorem mem_alGet_of_nodup {β : Type} {l : List (String × β)}
    (hnd : (l.map (fun p => p.1)).Nodup) {k : String} {v : β}
    (h : (k, v) ∈ l) : alGet l k = some v := by
  induction l with
  | nil => simp at h
  | cons p rest ih =>
    obtain ⟨pk, pv⟩ := p
    rw [List.map_cons, List.nodup_cons] at hnd
    rcases List.mem_cons.1 h with h | h
    · rw [Prod.mk.injEq] at h
      simp [alGet, h.1, h.2]
    · have hk : pk ≠ k := by
        intro he
        subst he
        exact hnd.1 (List.mem_map_of_mem (fun p => p.1) h)
      simp only [alGet, hk, if_false]
      exact ih hnd.2 h

theorem alSet_keys_of_mem {β : Type} {l : List (String × β)} {k : String} (v : β)
    (h : k ∈ l.map (fun p => p.1)) :
    (alSet l k v).map (fun p => p.1) = l.map (fun p => p.1) := by
  induction l with
  | nil => simp at h
  | cons p rest ih =>
    obtain ⟨pk, pv⟩ := p
    by_cases hk : pk = k
    · simp [alSet, hk]
    · rw [List.map_cons] at h
      rcases List.mem_cons.1 h with h | h
      · exact absurd h.symm hk
      · simp [alSet, hk, ih h]

theorem alSet_keys_of_not_mem {β : Type} {l : List (String × β)} {k : String} (v : β)
    (h : k ∉ l.map (fun p => p.1)) :
    (alSet l k v).map (fun p => p.1) = l.map (fun p => p.1) ++ [k] := by
  induction l with
  | nil => simp [alSet]
  | cons p rest ih =>
    obtain ⟨pk, pv⟩ := p
    rw [List.map_cons] at h
    have hk : pk ≠ k := fun he => h (he ▸ List.mem_cons_self _ _)
    have hrest : k ∉ rest.map (fun p => p.1) := fun hm => h (List.mem_cons_of_mem _ hm)
    simp [alSet, hk, ih hrest]

theorem alSet_ne_nil {β : Type} (l : List (String × β)) (k : String) (v : β) :
    alSet l k v ≠ [] := by
  cases l with
  | nil => simp [alSet]
  | cons p rest =>
    by_cases h : p.1 = k <;> simp [alSet, h]

theorem mem_alSet {β : Type} {l : List (String × β)} {k : String} {v : β} {p : String × β}
    (h : p ∈ alSet l k v) : p ∈ l ∨ p = (k, v) := by
  induction l with
  | nil => simp [alSet] at h; simp [h]
  | cons q rest ih =>
    by_cases hk : q.1 = k
    · simp [alSet, hk] at h
      rcases h with h | h
      · right; simp [h]
      · left; exact .tail _ h
    · simp [alSet, hk] at h
      rcases h with h | h
      · left; simp [h]
      · rcases ih h with h' | h'
        · left; exact .tail _ h'
        · right; exact h'

/-! ### `dedupeSet` lemmas -/

theorem dedupeSet_get_ne (cs : List (String × ℚ)) {ck ck' : String} (s : ℚ)
    (h : ck' ≠ ck) : alGet (dedupeSet cs ck s) ck' = alGet cs ck' := by
  unfold dedupeSet
  cases alGet cs ck with
  | none => exact alGet_alSet_ne cs s h
  | some prev =>
    by_cases hlt : prev < s
    · simp [hlt, alGet_alSet_ne cs s h]
    · simp [hlt]

theorem dedupeSet_keys_nodup {cs : List (String × ℚ)} (ck : String) (s : ℚ)
    (h : (cs.map (fun p => p.1)).Nodup) :
    ((dedupeSet cs ck s).map (fun p => p.1)).Nodup := by
  unfold dedupeSet
  cases hg : alGet cs ck with
  | none =>
    have hnot : ck ∉ cs.map (fun p => p.1) := (alGet_eq_none_iff cs ck).1 hg
    rw [alSet_keys_of_not_mem s hnot]
    refine List.Nodup.append h (List.nodup_singleton _) ?_
    intro a ha hb
    rw [List.mem_singleton] at hb
    subst hb
    exact hnot ha
  | some prev =>
    by_cases hlt : prev < s
    · have hmem : ck ∈ cs.map (fun p => p.1) :=
        (alGet_isSome_iff cs ck).1 (by simp [hg])
      simpa [hlt, alSet_keys_of_mem s hmem] using h
    · simpa [hlt] using h

theorem dedupeSet_ne_nil {cs : List (String × ℚ)} (ck : String) (s : ℚ)
    (h : cs ≠ [] ∨ alGet cs ck = none) : dedupeSet cs ck s ≠ [] := by
  unfold dedupeSet
  cases hg : alGet cs ck with
  | none => exact alSet_ne_nil cs ck s
  | some prev =>
    by_cases hlt : prev < s
    · simp only [hlt, if_true]
      exact alSet_ne_nil cs ck s
    · simp only [hlt, if_false]
      rcases h with h | h
      · exact h
      · simp [h] at hg

/-! ### `listMax` lemmas -/

theorem listMax_mem : ∀ {l : List ℚ}, l ≠ [] → listMax l ∈ l
  | [], h => absurd rfl h
  | [x], _ => by simp [listMax]
  | x :: y :: ys, _ => by
    rw [listMax]
    rcases le_total x (listMax (y :: ys)) with h | h
    · have := listMax_mem (l := y :: ys) (by simp)
      simp [max_eq_right h, this]
    · simp [max_eq_left h]

theorem le_listMax : ∀ {l : List ℚ} {x : ℚ}, x ∈ l → x ≤ listMax l
  | [], _, h => by simp at h
  | [y], x, h => by simp at h; simp [listMax, h]
  | y :: z :: zs, x, h => by
    rw [listMax]
    rcases List.mem_cons.1 h with h | h
    · subst h; exact le_max_left _ _
    · exact le_trans (le_listMax h) (le_max_right _ _)

theorem listMax_eq_of_max {l : List ℚ} {q : ℚ} (hmem : q ∈ l)
    (hub : ∀ x ∈ l, x ≤ q) : listMax l = q :=
  le_antisymm (hub _ (listMax_mem (by rintro rfl; simp at hmem))) (le_listMax hmem)

/-! ### `matchScores` lemmas -/

theorem matchScores_append (rows₁ rows₂ : List Row) (gk ck : String) :
    matchScores (rows₁ ++ rows₂) gk ck = matchScores rows₁ gk ck ++ matchScores rows₂ gk ck := by
  simp [matchScores, List.filter_append]

theorem matchScores_singleton (r : Row) (gk ck : String) :
    matchScores [r] gk ck =
      if (includedRow r && groupKeyOf r == gk && compKeyOf r == ck) = true
      then [scoreOf r] else [] := by
  by_cases h : (includedRow r && groupKeyOf r == gk && compKeyOf r == ck) = true <;>
    simp [matchScores, List.filter, h]

theorem matchScores_snoc (pre : List Row) (r : Row) (gk ck : String) :
    matchScores (pre ++ [r]) gk ck =
      matchScores pre gk ck ++
        (if (includedRow r && groupKeyOf r == gk && compKeyOf r == ck) = true
         then [scoreOf r] else []) := by
  rw [matchScores_append, matchScores_singleton]

theorem matchScores_snoc_other (pre : List Row) (r : Row) (gk ck : String)
    (h : ¬(includedRow r = true ∧ groupKeyOf r = gk ∧ compKeyOf r = ck)) :
    matchScores (pre ++ [r]) gk ck = matchScores pre gk ck := by
  rw [matchScores_snoc]
  have hcond : (includedRow r && groupKeyOf r == gk && compKeyOf r == ck) ≠ true := by
    intro hc
    rw [Bool.and_eq_true, Bool.and_eq_true, beq_iff_eq, beq_iff_eq] at hc
    exact h ⟨hc.1.1, hc.1.2, hc.2⟩
  simp [hcond]

theorem scoreOf_mem_matchScores {rows : List Row} {r : Row} (hmem : r ∈ rows)
    (hinc : includedRow r = true) :
    scoreOf r ∈ matchScores rows (groupKeyOf r) (compKeyOf r) := by
  refine List.mem_map_of_mem scoreOf ?_
  simp [List.mem_filter, hmem, hinc]

theorem includedRow_iff (r : Row) :
    includedRow r = true ↔ programOf r ≠ "" ∧ teamOf r ≠ "" ∧ trackOf r ≠ "" := by
  simp [includedRow, and_assoc]

/-! ### The aggregation-loop invariant -/

/-- What the loop guarantees for one group accumulator: competition keys
are distinct, at least one is present, each key is present exactly when
some aggregated row feeds it, the stored value is the maximum of the fed
scores, and the identity fields are non-empty. -/
structure GroupInv (pre : List Row) (gk : String) (a : Agg) : Prop where
  ckNodup : (a.compScores.map (fun p => p.1)).Nodup
  csNe : a.compScores ≠ []
  ckIff : ∀ ck, (alGet a.compScores ck).isSome = true ↔ matchScores pre gk ck ≠ []
  maxMem : ∀ ck q, alGet a.compScores ck = some q → q ∈ matchScores pre gk ck
  maxGe : ∀ ck q, alGet a.compScores ck = some q → ∀ x ∈ matchScores pre gk ck, x ≤ q
  progNe : a.program ≠ ""
  teamNe : a.team ≠ ""
  trackNe : a.track ≠ ""

/-- What the loop guarantees for the whole group map after consuming the
rows `pre`. -/
structure MapInv (pre : List Row) (m : List (String × Agg)) : Prop where
  keysNodup : (m.map (fun p => p.1)).Nodup
  keyEq : ∀ p ∈ m, p.2.key = p.1
  absent : ∀ gk, alGet m gk = none → ∀ ck, matchScores pre gk ck = []
  present : ∀ gk a, alGet m gk = some a → GroupInv pre gk a

theorem groupInv_snoc_irrel {pre : List Row} {r : Row} {gk : String} {a : Agg}
    (h : ¬(includedRow r = true ∧ groupKeyOf r = gk)) (g : GroupInv pre gk a) :
    GroupInv (pre ++ [r]) gk a := by
  have hms : ∀ ck, matchScores (pre ++ [r]) gk ck = matchScores pre gk ck := fun ck =>
    matchScores_snoc_other pre r gk ck (fun hc => h ⟨hc.1, hc.2.1⟩)
  exact ⟨g.ckNodup, g.csNe, fun ck => by rw [hms]; exact g.ckIff ck,
         fun ck q hq => by rw [hms]; exact g.maxMem ck q hq,
         fun ck q hq x hx => g.maxGe ck q hq x (by rwa [hms] at hx),
         g.progNe, g.teamNe, g.trackNe⟩

theorem step_eq_skip {m : List (String × Agg)} {r : Row} (hinc : ¬includedRow r = true) :
    step m r = m := by
  simp [step, hinc]

theorem step_eq_new {m : List (String × Agg)} {r : Row} (hinc : includedRow r = true)
    (h : alGet m (groupKeyOf r) = none) :
    step m r = m ++ [(groupKeyOf r,
      ⟨groupKeyOf r, programOf r, teamOf r, trackOf r,
       [(compKeyOf r, scoreOf r)], [⟨weekendOf r, (parseMeta r).size⟩]⟩)] := by
  simp [step, hinc, h]

theorem step_eq_upd {m : List (String × Agg)} {r : Row} {a : Agg}
    (hinc : includedRow r = true) (h : alGet m (groupKeyOf r) = some a) :
    step m r = alSet m (groupKeyOf r)
      { a with compScores := dedupeSet a.compScores (compKeyOf r) (scoreOf r),
               rowsByWeekendDesc := a.rowsByWeekendDesc ++ [⟨weekendOf r, (parseMeta r).size⟩] } := by
  simp [step, hinc, h]

theorem matchScores_snoc_self (pre : List Row) {r : Row} (hinc : includedRow r = true) :
    matchScores (pre ++ [r]) (groupKeyOf r) (compKeyOf r) =
      matchScores pre (groupKeyOf r) (compKeyOf r) ++ [scoreOf r] := by
  rw [matchScores_snoc]
  simp [hinc]

theorem mapInv_step {pre : List Row} {m : List (String × Agg)} (inv : MapInv pre m)
    (r : Row) : MapInv (pre ++ [r]) (step m r) := by
  by_cases hinc : includedRow r = true
  · cases halget : alGet m (groupKeyOf r) with
    | none =>
      rw [step_eq_new hinc halget]
      have hnotmem : groupKeyOf r ∉ m.map (fun p => p.1) :=
        (alGet_eq_none_iff m (groupKeyOf r)).1 halget
      have hempty : ∀ ck, matchScores pre (groupKeyOf r) ck = [] := inv.absent _ halget
      refine ⟨?_, ?_, ?_, ?_⟩
      · rw [List.map_append]
        refine List.Nodup.append inv.keysNodup (by simp) ?_
        intro x hx hx'
        simp at hx'
        subst hx'
        exact hnotmem hx
      · intro p hp
        rcases List.mem_append.1 hp with hp | hp
        · exact inv.keyEq p hp
        · rw [List.mem_singleton] at hp
          subst hp
          rfl
      · intro gk hgk ck
        rw [alGet_append] at hgk
        cases hm : alGet m gk with
        | some b => rw [hm] at hgk; exact absurd hgk (by simp)
        | none =>
          rw [hm] at hgk
          simp only at hgk
          have hne : groupKeyOf r ≠ gk := by
            intro he
            rw [alGet, if_pos he] at hgk
            exact absurd hgk (by simp)
          rw [matchScores_snoc_other pre r gk ck (fun hc => hne hc.2.1)]
          exact inv.absent gk hm ck
      · intro gk a hgk
        rw [alGet_append] at hgk
        cases hm : alGet m gk with
        | some b =>
          rw [hm] at hgk
          simp only [Option.some.injEq] at hgk
          subst hgk
          have hne : groupKeyOf r ≠ gk := by
            intro he
            rw [he] at halget
            rw [halget] at hm
            exact absurd hm (by simp)
          exact groupInv_snoc_irrel (fun hc => hne hc.2) (inv.present gk b hm)
        | none =>
          rw [hm] at hgk
          simp only at hgk
          by_cases he : groupKeyOf r = gk
          · subst he
            rw [alGet, if_pos rfl] at hgk
            simp only [Option.some.injEq] at hgk
            subst hgk
            refine ⟨by simp, by simp, ?_, ?_, ?_, ?_, ?_, ?_⟩
            · intro ck
              by_cases hck : compKeyOf r = ck
              · subst hck
                rw [matchScores_snoc_self pre hinc, hempty]
                simp [alGet]
              · rw [matchScores_snoc_other pre r _ ck (fun hc => hck hc.2.2), hempty]
                simp [alGet, hck]
            · intro ck q hq
              rw [alGet] at hq
              by_cases hck : compKeyOf r = ck
              · rw [if_pos hck] at hq
                simp only [Option.some.injEq] at hq
                subst hq
                rw [← hck, matchScores_snoc_self pre hinc, hempty]
                simp
              · rw [if_neg hck] at hq
                exact absurd hq (by simp [alGet])
            · intro ck q hq x hx
              rw [alGet] at hq
              by_cases hck : compKeyOf r = ck
              · rw [if_pos hck] at hq
                simp only [Option.some.injEq] at hq
                subst hq
                rw [← hck, matchScores_snoc_self pre hinc, hempty] at hx
                simp at hx
                exact le_of_eq hx
              · rw [if_neg hck] at hq
                exact absurd hq (by simp [alGet])
            · exact ((includedRow_iff r).1 hinc).1
            · exact ((includedRow_iff r).1 hinc).2.1
            · exact ((includedRow_iff r).1 hinc).2.2
          · rw [alGet, if_neg he] at hgk
            exact absurd hgk (by simp [alGet])
    | some a =>
      rw [step_eq_upd hinc halget]
      have hmem : groupKeyOf r ∈ m.map (fun p => p.1) :=
        (alGet_isSome_iff m (groupKeyOf r)).1 (by simp [halget])
      have hkey : a.key = groupKeyOf r := inv.keyEq _ (alGet_mem halget)
      have g := inv.present _ a halget
      refine ⟨?_, ?_, ?_, ?_⟩
      · rw [alSet_keys_of_mem _ hmem]
        exact inv.keysNodup
      · intro p hp
        rcases mem_alSet hp with hp | hp
        · exact inv.keyEq p hp
        · subst hp
          exact hkey
      · intro gk hgk ck
        have hne : gk ≠ groupKeyOf r := by
          intro he
          rw [he, alGet_alSet_self] at hgk
          exact absurd hgk (by simp)
        rw [alGet_alSet_ne m _ hne] at hgk
        rw [matchScores_snoc_other pre r gk ck (fun hc => hne hc.2.1.symm)]
        exact inv.absent gk hgk ck
      · intro gk b hgk
        by_cases hne : gk = groupKeyOf r
        · subst hne
          rw [alGet_alSet_self] at hgk
          simp only [Option.some.injEq] at hgk
          subst hgk
          refine ⟨dedupeSet_keys_nodup _ _ g.ckNodup,
                  dedupeSet_ne_nil _ _ (Or.inl g.csNe), ?_, ?_, ?_,
                  g.progNe, g.teamNe, g.trackNe⟩
          · intro ck
            by_cases hck : ck = compKeyOf r
            · subst hck
              rw [matchScores_snoc_self pre hinc]
              constructor
              · intro _
                simp
              · intro _
                unfold dedupeSet
                cases hprev : alGet a.compScores (compKeyOf r) with
                | none => simp [alGet_alSet_self]
                | some prev =>
                  by_cases hlt : prev < scoreOf r
                  · simp [hlt, alGet_alSet_self]
                  · simp [hlt, hprev]
            · rw [dedupeSet_get_ne _ _ hck,
                  matchScores_snoc_other pre r _ ck (fun hc => hck hc.2.2.symm)]
              exact g.ckIff ck
          · intro ck q hq
            by_cases hck : ck = compKeyOf r
            · subst hck
              rw [matchScores_snoc_self pre hinc]
              unfold dedupeSet at hq
              cases hprev : alGet a.compScores (compKeyOf r) with
              | none =>
                rw [hprev, alGet_alSet_self] at hq
                simp only [Option.some.injEq] at hq
                subst hq
                simp
              | some prev =>
                simp only [hprev] at hq
                by_cases hlt : prev < scoreOf r
                · rw [if_pos hlt, alGet_alSet_self] at hq
                  simp only [Option.some.injEq] at hq
                  subst hq
                  simp
                · rw [if_neg hlt, hprev] at hq
                  simp only [Option.some.injEq] at hq
                  subst hq
                  exact List.mem_append_left _ (g.maxMem _ prev hprev)
            · rw [dedupeSet_get_ne _ _ hck] at hq
              rw [matchScores_snoc_other pre r _ ck (fun hc => hck hc.2.2.symm)]
              exact g.maxMem ck q hq
          · intro ck q hq x hx
            by_cases hck : ck = compKeyOf r
            · subst hck
              rw [matchScores_snoc_self pre hinc] at hx
              unfold dedupeSet at hq
              cases hprev : alGet a.compScores (compKeyOf r) with
              | none =>
                rw [hprev, alGet_alSet_self] at hq
                simp only [Option.some.injEq] at hq
                subst hq
                have hempty' : matchScores pre (groupKeyOf r) (compKeyOf r) = [] := by
                  have hiff := g.ckIff (compKeyOf r)
                  rw [hprev] at hiff
                  by_contra hne'
                  exact absurd (hiff.2 hne') (by simp)
                rw [hempty'] at hx
                simp at hx
                exact le_of_eq hx
              | some prev =>
                simp only [hprev] at hq
                rcases List.mem_append.1 hx with hx | hx
                · by_cases hlt : prev < scoreOf r
                  · rw [if_pos hlt, alGet_alSet_self] at hq
                    simp only [Option.some.injEq] at hq
                    subst hq
                    exact le_trans (g.maxGe _ prev hprev x hx) (le_of_lt hlt)
                  · rw [if_neg hlt, hprev] at hq
                    simp only [Option.some.injEq] at hq
                    subst hq
                    exact g.maxGe _ prev hprev x hx
                · rw [List.mem_singleton] at hx
                  subst hx
                  by_cases hlt : prev < scoreOf r
                  · rw [if_pos hlt, alGet_alSet_self] at hq
                    simp only [Option.some.injEq] at hq
                    subst hq
                    exact le_refl _
                  · rw [if_neg hlt, hprev] at hq
                    simp only [Option.some.injEq] at hq
                    subst hq
                    exact le_of_not_lt hlt
            · rw [dedupeSet_get_ne _ _ hck] at hq
              rw [matchScores_snoc_other pre r _ ck (fun hc => hck hc.2.2.symm)] at hx
              exact g.maxGe ck q hq x hx
        · rw [alGet_alSet_ne m _ hne] at hgk
          exact groupInv_snoc_irrel (fun hc => hne hc.2.symm) (inv.present gk b hgk)
  · rw [step_eq_skip hinc]
    refine ⟨inv.keysNodup, inv.keyEq, ?_, ?_⟩
    · intro gk hgk ck
      rw [matchScores_snoc_other pre r gk ck (fun hc => hinc hc.1)]
      exact inv.absent gk hgk ck
    · intro gk a hgk
      exact groupInv_snoc_irrel (fun hc => hinc hc.1) (inv.present gk a hgk)

theorem mapInv_nil : MapInv [] [] := by
  refine ⟨by simp, by simp, ?_, ?_⟩
  · intro gk _ ck
    simp [matchScores]
  · intro gk a hgk
    simp [alGet] at hgk

theorem mapInv_foldl :
    ∀ (rows pre : List Row) (m : List (String × Agg)),
      MapInv pre m → MapInv (pre ++ rows) (List.foldl step m rows)
  | [], pre, m, inv => by simpa using inv
  | r :: rs, pre, m, inv => by
    have h1 : MapInv (pre ++ [r]) (step m r) := mapInv_step inv r
    have h2 := mapInv_foldl rs (pre ++ [r]) (step m r) h1
    simpa using h2

theorem buildAgg_inv (rows : List Row) : MapInv rows (buildAgg rows) := by
  have := mapInv_foldl rows [] [] mapInv_nil
  simpa [buildAgg] using this

theorem mem_buildAgg_get {rows : List Row} {p : String × Agg} (h : p ∈ buildAgg rows) :
    alGet (buildAgg rows) p.1 = some p.2 :=
  mem_alGet_of_nodup (buildAgg_inv rows).keysNodup (by cases p; exact h)

/-! ### Lemmas about the final stable sort -/

theorem insertByAvgDesc_perm (e : RankEntry) (l : List RankEntry) :
    (insertByAvgDesc e l).Perm (e :: l) := by
  induction l with
  | nil => exact List.Perm.refl _
  | cons a rest ih =>
    by_cases h : a.avg ≤ e.avg
    · simp only [insertByAvgDesc, h, if_true]
      exact List.Perm.refl _
    · simp only [insertByAvgDesc, h, if_false]
      exact (ih.cons a).trans (List.Perm.swap e a rest)

theorem sortByAvgDesc_perm (l : List RankEntry) : (sortByAvgDesc l).Perm l := by
  induction l with
  | nil => exact List.Perm.refl _
  | cons x xs ih =>
    exact (insertByAvgDesc_perm x (sortByAvgDesc xs)).trans (ih.cons x)

theorem mem_sortByAvgDesc {e : RankEntry} {l : List RankEntry} :
    e ∈ sortByAvgDesc l ↔ e ∈ l :=
  (sortByAvgDesc_perm l).mem_iff

theorem pairwise_insertByAvgDesc {e : RankEntry} {l : List RankEntry}
    (h : l.Pairwise (fun a b => b.avg ≤ a.avg)) :
    (insertByAvgDesc e l).Pairwise (fun a b => b.avg ≤ a.avg) := by
  induction l with
  | nil => simp [insertByAvgDesc]
  | cons a rest ih =>
    rcases List.pairwise_cons.1 h with ⟨ha, hrest⟩
    by_cases hle : a.avg ≤ e.avg
    · simp only [insertByAvgDesc, hle, if_true]
      refine List.pairwise_cons.2 ⟨?_, h⟩
      intro b hb
      rcases List.mem_cons.1 hb with hb | hb
      · subst hb; exact hle
      · exact le_trans (ha b hb) hle
    · simp only [insertByAvgDesc, hle, if_false]
      refine List.pairwise_cons.2 ⟨?_, ih hrest⟩
      intro b hb
      have hb' := (insertByAvgDesc_perm e rest).mem_iff.1 hb
      rcases List.mem_cons.1 hb' with hb'' | hb''
      · subst hb''; exact le_of_lt (lt_of_not_le hle)
      · exact ha b hb''

theorem sortByAvgDesc_sorted (l : List RankEntry) :
    (sortByAvgDesc l).Pairwise (fun a b => b.avg ≤ a.avg) := by
  induction l with
  | nil => simp [sortByAvgDesc]
  | cons x xs ih => exact pairwise_insertByAvgDesc ih

theorem sublist_insertByAvgDesc (e : RankEntry) (l : List RankEntry) :
    l.Sublist (insertByAvgDesc e l) := by
  induction l with
  | nil => exact List.nil_sublist _
  | cons a rest ih =>
    by_cases h : a.avg ≤ e.avg
    · simp only [insertByAvgDesc, h, if_true]
      exact List.sublist_cons_self e (a :: rest)
    · simp only [insertByAvgDesc, h, if_false]
      exact ih.cons₂ a

theorem insertByAvgDesc_pair {e b : RankEntry} {l : List RankEntry}
    (hs : l.Pairwise (fun a b => b.avg ≤ a.avg)) (hb : b ∈ l) (hle : b.avg ≤ e.avg) :
    [e, b].Sublist (insertByAvgDesc e l) := by
  induction l with
  | nil => simp at hb
  | cons a rest ih =>
    rcases List.pairwise_cons.1 hs with ⟨_, hrest⟩
    by_cases h : a.avg ≤ e.avg
    · simp only [insertByAvgDesc, h, if_true]
      exact (List.singleton_sublist.2 hb).cons₂ e
    · simp only [insertByAvgDesc, h, if_false]
      rcases List.mem_cons.1 hb with hb' | hb'
      · subst hb'
        exact absurd hle h
      · exact (ih hrest hb').cons a

theorem sortByAvgDesc_stable {l : List RankEntry} {a b : RankEntry}
    (hab : [a, b].Sublist l) (hle : b.avg ≤ a.avg) :
    [a, b].Sublist (sortByAvgDesc l) := by
  induction l with
  | nil => exact absurd (List.Sublist.length_le hab) (by simp)
  | cons x xs ih =>
    cases hab with
    | cons _ h => exact (ih h).trans (sublist_insertByAvgDesc x _)
    | cons₂ _ h =>
      have hb : b ∈ sortByAvgDesc xs :=
        mem_sortByAvgDesc.2 (List.singleton_sublist.1 h)
      exact insertByAvgDesc_pair (sortByAvgDesc_sorted xs) hb hle

/-! ### `toEntry` and `rankingsPreSort` lemmas -/

theorem toEntry_key (a : Agg) : (toEntry a).key = a.key := rfl

theorem toEntry_program (a : Agg) : (toEntry a).program = a.program := rfl

theorem toEntry_team (a : Agg) : (toEntry a).team = a.team := rfl

theorem toEntry_comps (a : Agg) : (toEntry a).comps = a.compScores.length := by
  simp [toEntry]

theorem toEntry_size_final (a : Agg) :
    (toEntry a).size_final = resolveTeamSize (sortByWeekendDesc a.rowsByWeekendDesc) := rfl

theorem toEntry_avg (a : Agg) :
    (toEntry a).avg =
      if a.compScores.length = 0 then 0
      else ((a.compScores.map (fun p => p.2)).sum) / (a.compScores.length : ℚ) := by
  simp only [toEntry, List.sum_eq_foldl, List.length_map]

theorem toEntry_bucket (a : Agg) :
    (toEntry a).bucket =
      match resolveTeamSize (sortByWeekendDesc a.rowsByWeekendDesc) with
      | some s => a.track ++ " " ++ s.label
      | none => a.track := rfl

theorem mem_rankingsPreSort {rows : List Row} {f : Filters} {e : RankEntry}
    (h : e ∈ rankingsPreSort rows f) : ∃ p ∈ buildAgg rows, e = toEntry p.2 := by
  simp only [rankingsPreSort] at h
  have h1 : e ∈ (if f.requireTwoPlus
      then ((buildAgg rows).map (fun p => toEntry p.2)).filter (fun x => decide (2 ≤ x.comps))
      else (buildAgg rows).map (fun p => toEntry p.2)) := by
    cases hsz : f.size with
    | none => rw [hsz] at h; exact h
    | some s => rw [hsz] at h; exact (List.mem_filter.1 h).1
  have h2 : e ∈ (buildAgg rows).map (fun p => toEntry p.2) := by
    by_cases hrt : f.requireTwoPlus
    · rw [if_pos hrt] at h1; exact (List.mem_filter.1 h1).1
    · rw [if_neg hrt] at h1; exact h1
  rcases List.mem_map.1 h2 with ⟨p, hp, he⟩
  exact ⟨p, hp, he.symm⟩

theorem rankingsPreSort_twoPlus {rows : List Row} {f : Filters} {e : RankEntry}
    (hrt : f.requireTwoPlus = true) (h : e ∈ rankingsPreSort rows f) : 2 ≤ e.comps := by
  simp only [rankingsPreSort] at h
  have h1 : e ∈ (if f.requireTwoPlus
      then ((buildAgg rows).map (fun p => toEntry p.2)).filter (fun x => decide (2 ≤ x.comps))
      else (buildAgg rows).map (fun p => toEntry p.2)) := by
    cases hsz : f.size with
    | none => rw [hsz] at h; exact h
    | some s => rw [hsz] at h; exact (List.mem_filter.1 h).1
  rw [if_pos hrt] at h1
  have := (List.mem_filter.1 h1).2
  exact of_decide_eq_true this

theorem rankingsPreSort_sizeFilter {rows : List Row} {f : Filters} {s : Size} {e : RankEntry}
    (hsz : f.size = some s) (h : e ∈ rankingsPreSort rows f) :
    ∃ sf, e.size_final = some sf ∧ normalize sf.label = normalize s.label := by
  simp only [rankingsPreSort, hsz] at h
  have hpred := (List.mem_filter.1 h).2
  cases hsf : e.size_final with
  | none => rw [hsf] at hpred; exact absurd hpred (by simp)
  | some sf =>
    rw [hsf] at hpred
    simp only [beq_iff_eq] at hpred
    exact ⟨sf, rfl, hpred⟩

theorem rankingsPreSort_mem_of {rows : List Row} {f : Filters}
    (hrt : f.requireTwoPlus = false) (hsz : f.size = none)
    {p : String × Agg} (hp : p ∈ buildAgg rows) :
    toEntry p.2 ∈ rankingsPreSort rows f := by
  simp only [rankingsPreSort, hrt, hsz, if_false, Bool.false_eq_true]
  exact List.mem_map_of_mem (fun p => toEntry p.2) hp

theorem mem_teamRankings {rows : List Row} {f : Filters} {e : RankEntry} :
    e ∈ teamRankings rows f ↔ e ∈ rankingsPreSort rows f := by
  rw [teamRankings, mem_sortByAvgDesc]

/-! ### Remaining helper lemmas -/

theorem compScores_values {rows : List Row} {gk : String} {a : Agg}
    (g : GroupInv rows gk a) :
    a.compScores.map (fun p => p.2) =
      (a.compScores.map (fun p => p.1)).map (fun ck => listMax (matchScores rows gk ck)) := by
  rw [List.map_map]
  refine List.map_congr_left ?_
  intro p hp
  have hget : alGet a.compScores p.1 = some p.2 :=
    mem_alGet_of_nodup g.ckNodup (by cases p; exact hp)
  exact (listMax_eq_of_max (g.maxMem p.1 p.2 hget) (g.maxGe p.1 p.2 hget)).symm

theorem sizeTier1_eq_spec : ∀ h : List SizeObs, sizeTier1 h = specResolveSize h
  | [] => rfl
  | o :: rest => by
    cases ho : o.size with
    | some s =>
      rw [sizeTier1, List.find?_cons_of_pos _ (by simp [ho])]
      simp [specResolveSize, ho]
    | none =>
      rw [sizeTier1, List.find?_cons_of_neg _ (by simp [ho])]
      simp only [specResolveSize, ho]
      exact sizeTier1_eq_spec rest

theorem resolveTeamSize_eq_tier1 (h : List SizeObs) : resolveTeamSize h = sizeTier1 h := by
  rw [resolveTeamSize]
  cases ht : sizeTier1 h with
  | some s => simp [ht]
  | none =>
    simp only [ht]
    exact ht

theorem specResolveSize_none :
    ∀ h : List SizeObs, (∀ o ∈ h, o.size = none) → specResolveSize h = none
  | [], _ => rfl
  | o :: rest, hall => by
    have ho := hall o (List.mem_cons_self o rest)
    simp only [specResolveSize, ho]
    exact specResolveSize_none rest (fun o' ho' => hall o' (List.mem_cons_of_mem _ ho'))

theorem append_ne_empty_left {s t : String} (h : s ≠ "") : s ++ t ≠ "" := by
  intro he
  apply h
  have hd : s.data ++ t.data = [] := by
    have hdata := congrArg String.data he
    rwa [String.data_append] at hdata
  have h1 : s.data = [] := (List.append_eq_nil.1 hd).1
  cases s with
  | mk d =>
    simp at h1
    subst h1
    rfl

theorem startsWithList_iff (needle hay : List Char) :
    startsWithList hay needle = true ↔ ∃ r, hay = needle ++ r := by
  induction needle generalizing hay with
  | nil => simp [startsWithList]
  | cons n ns ih =>
    cases hay with
    | nil => simp [startsWithList]
    | cons h hs =>
      simp only [startsWithList, Bool.and_eq_true, decide_eq_true_eq, ih]
      constructor
      · rintro ⟨rfl, r, rfl⟩
        exact ⟨r, rfl⟩
      · rintro ⟨r, hr⟩
        rw [List.cons_append] at hr
        injection hr with h1 h2
        exact ⟨h1, r, h2⟩

theorem containsList_iff (needle hay : List Char) :
    containsList needle hay = true ↔ ∃ l r, hay = l ++ needle ++ r := by
  induction hay with
  | nil =>
    rw [containsList]
    constructor
    · intro h
      refine ⟨[], [], ?_⟩
      rw [List.isEmpty_iff] at h
      simp [h]
    · rintro ⟨l, r, hr⟩
      rw [List.isEmpty_iff]
      rcases List.append_eq_nil.1 (List.append_eq_nil.1 hr.symm).1 with ⟨_, h2⟩
      exact h2
  | cons c cs ih =>
    rw [containsList, Bool.or_eq_true, ih, startsWithList_iff]
    constructor
    · rintro (⟨r, hr⟩ | ⟨l, r, hr⟩)
      · exact ⟨[], r, by simpa using hr⟩
      · exact ⟨c :: l, r, by simp [hr]⟩
    · rintro ⟨l, r, hr⟩
      cases l with
      | nil =>
        left
        exact ⟨r, by simpa using hr⟩
      | cons x xs =>
        right
        rw [List.cons_append, List.cons_append] at hr
        injection hr with h1 h2
        exact ⟨xs, r, by simp [h2]⟩

/-! ### Claim theorems -/

/-- C1: for every team-track group in the aggregator's output, its `avg`
equals the arithmetic mean of the best-per-competition scores, where the
best score for each distinct competition identity of the group is the
maximum score among all input records sharing that competition identity and
the group's (team identity, track) key. -/
theorem C1_avg_is_mean_of_best_per_competition (rows : List Row) (f : Filters)
    (e : RankEntry) (he : e ∈ teamRankings rows f) :
    ∃ (gk : String) (cks : List String), e.key = gk ∧ cks.Nodup ∧
      (∀ ck, ck ∈ cks ↔ matchScores rows gk ck ≠ []) ∧
      (∀ ck ∈ cks, listMax (matchScores rows gk ck) ∈ matchScores rows gk ck ∧
        ∀ x ∈ matchScores rows gk ck, x ≤ listMax (matchScores rows gk ck)) ∧
      e.comps = cks.length ∧ 1 ≤ cks.length ∧
      e.avg = (cks.map (fun ck => listMax (matchScores rows gk ck))).sum / (cks.length : ℚ) := by
  rcases mem_rankingsPreSort (mem_teamRankings.1 he) with ⟨p, hp, hep⟩
  have hget := mem_buildAgg_get hp
  have inv := buildAgg_inv rows
  have g := inv.present p.1 p.2 hget
  have hkey : p.2.key = p.1 := inv.keyEq p hp
  refine ⟨p.1, p.2.compScores.map (fun q => q.1), ?_, g.ckNodup, ?_, ?_, ?_, ?_, ?_⟩
  · rw [hep, toEntry_key, hkey]
  · intro ck
    rw [← alGet_isSome_iff]
    exact g.ckIff ck
  · intro ck hck
    have hsome : (alGet p.2.compScores ck).isSome = true := (alGet_isSome_iff _ _).2 hck
    rcases Option.isSome_iff_exists.1 hsome with ⟨q, hq⟩
    rw [listMax_eq_of_max (g.maxMem ck q hq) (g.maxGe ck q hq)]
    exact ⟨g.maxMem ck q hq, g.maxGe ck q hq⟩
  · rw [hep, toEntry_comps, List.length_map]
  · rw [List.length_map]
    exact List.length_pos.2 g.csNe
  · have hlen : p.2.compScores.length ≠ 0 := by
      intro h0
      exact g.csNe (List.length_eq_zero.1 h0)
    rw [hep, toEntry_avg, if_neg hlen, compScores_values g, List.length_map]

/-- C1 exercised at a concrete two-competition team. -/
theorem C1_witness :
    ∃ (gk : String) (cks : List String), (toEntry c1agg).key = gk ∧ cks.Nodup ∧
      (∀ ck, ck ∈ cks ↔ matchScores [c1rowA, c1rowB] gk ck ≠ []) ∧
      (∀ ck ∈ cks, listMax (matchScores [c1rowA, c1rowB] gk ck) ∈ matchScores [c1rowA, c1rowB] gk ck ∧
        ∀ x ∈ matchScores [c1rowA, c1rowB] gk ck, x ≤ listMax (matchScores [c1rowA, c1rowB] gk ck)) ∧
      (toEntry c1agg).comps = cks.length ∧ 1 ≤ cks.length ∧
      (toEntry c1agg).avg =
        (cks.map (fun ck => listMax (matchScores [c1rowA, c1rowB] gk ck))).sum / (cks.length : ℚ) :=
  C1_avg_is_mean_of_best_per_competition [c1rowA, c1rowB] DEFAULT_FILTERS (toEntry c1agg)
    (by rw [show teamRankings [c1rowA, c1rowB] DEFAULT_FILTERS = [toEntry c1agg] from rfl]
        exact List.mem_singleton_self _)

/-- C2, counterexample: a row whose score has no finite coercion is NOT
excluded — it creates a competition entry with score `0` and surfaces a
team with one counted competition and average `0`. -/
theorem C2_counterexample :
    teamRankings [c2row] c2filters = [toEntry c2agg] ∧
    (toEntry c2agg).comps = 1 ∧ (toEntry c2agg).avg = 0 ∧
    alGet (buildAgg [c2row]) (groupKeyOf c2row) = some c2agg ∧
    alGet c2agg.compScores (compKeyOf c2row) = some 0 := by
  refine ⟨rfl, rfl, ?_, rfl, rfl⟩
  rw [toEntry_avg]
  simp [c2agg]

/-- C2 as amended: a record whose score cannot be coerced to a finite
number is treated as a score of `0` — it still contributes an entry for
its competition identity to the team's dedup map (with a value at least
`0`) instead of being excluded. -/
theorem C2_amended_nonfinite_score_contributes_zero (rows : List Row) (r : Row)
    (hmem : r ∈ rows) (hinc : includedRow r = true) (hscore : r.score = none) :
    scoreOf r = 0 ∧
    ∃ a q, alGet (buildAgg rows) (groupKeyOf r) = some a ∧
      alGet a.compScores (compKeyOf r) = some q ∧ 0 ≤ q := by
  have hzero : scoreOf r = 0 := by rw [scoreOf, hscore]; rfl
  have hms : (0 : ℚ) ∈ matchScores rows (groupKeyOf r) (compKeyOf r) := by
    have hsc := scoreOf_mem_matchScores hmem hinc
    rwa [hzero] at hsc
  have inv := buildAgg_inv rows
  cases hget : alGet (buildAgg rows) (groupKeyOf r) with
  | none =>
    have habs := inv.absent _ hget (compKeyOf r)
    rw [habs] at hms
    exact absurd hms (by simp)
  | some a =>
    have g := inv.present _ a hget
    have hne : matchScores rows (groupKeyOf r) (compKeyOf r) ≠ [] := by
      intro h0
      rw [h0] at hms
      exact absurd hms (by simp)
    rcases Option.isSome_iff_exists.1 ((g.ckIff (compKeyOf r)).2 hne) with ⟨q, hq⟩
    exact ⟨hzero, a, q, rfl, hq, g.maxGe _ q hq 0 hms⟩

/-- C2 amended claim exercised at the concrete non-coercible row. -/
theorem C2_amended_witness :
    scoreOf c2row = 0 ∧
    ∃ a q, alGet (buildAgg [c2row]) (groupKeyOf c2row) = some a ∧
      alGet a.compScores (compKeyOf c2row) = some q ∧ 0 ≤ q :=
  C2_amended_nonfinite_score_contributes_zero [c2row] c2row
    (List.mem_singleton_self c2row) (by decide) rfl

/-- C3: the deduplicator keeps exactly one entry per competition identity
(keys are distinct) holding the maximum observed score, the competition
identity is resolved as event id, else source URL, else event name plus
weekend, and two records with the same team identity, track and event
identity with scores 9.1 and 9.4 yield one entry with score 9.4. -/
theorem C3_dedupe_keeps_max_per_competition :
    (∀ (rows : List Row) (gk : String) (a : Agg), alGet (buildAgg rows) gk = some a →
      (a.compScores.map (fun p => p.1)).Nodup ∧
      ∀ ck q, alGet a.compScores ck = some q →
        q ∈ matchScores rows gk ck ∧ ∀ x ∈ matchScores rows gk ck, x ≤ q)
    ∧ (∀ r : Row,
        (eventIdOf r ≠ "" → compKeyOf r = "event:" ++ eventIdOf r) ∧
        (eventIdOf r = "" → sourceUrlOf r ≠ "" → compKeyOf r = "url:" ++ sourceUrlOf r) ∧
        (eventIdOf r = "" → sourceUrlOf r = "" →
          compKeyOf r = "name:" ++ eventNameOf r ++ "__wk:" ++ weekendOf r))
    ∧ buildAgg [c3row1, c3row2] = [("T1__L3 Junior", c3agg)]
    ∧ c3agg.compScores = [("event:evt-42", 94/10)] := by
  refine ⟨?_, ?_, rfl, ?_⟩
  · intro rows gk a hget
    have g := (buildAgg_inv rows).present gk a hget
    exact ⟨g.ckNodup, fun ck q hq => ⟨g.maxMem ck q hq, g.maxGe ck q hq⟩⟩
  · intro r
    refine ⟨fun h => ?_, fun h1 h2 => ?_, fun h1 h2 => ?_⟩
    · rw [compKeyOf, if_pos h]
    · rw [compKeyOf, if_neg (not_not_intro h1), if_pos h2]
    · rw [compKeyOf, if_neg (not_not_intro h1), if_neg (not_not_intro h2)]
  · rw [show c3agg.compScores = [("event:evt-42", (⟨47, 5, by decide, by decide⟩ : ℚ))] from rfl]
    have h94 : (⟨47, 5, by decide, by decide⟩ : ℚ) = 94 / 10 := by
      rw [Rat.mk'_eq_divInt, Rat.divInt_eq_div]
      norm_num
    rw [h94]

/-- C3 exercised at the concrete pair of same-competition rows. -/
theorem C3_witness :
    (c3agg.compScores.map (fun p => p.1)).Nodup ∧
    ∀ ck q, alGet c3agg.compScores ck = some q →
      q ∈ matchScores [c3row1, c3row2] "T1__L3 Junior" ck ∧
      ∀ x ∈ matchScores [c3row1, c3row2] "T1__L3 Junior" ck, x ≤ q :=
  C3_dedupe_keeps_max_per_competition.1 [c3row1, c3row2] "T1__L3 Junior" c3agg rfl

/-- C4: `resolveTeamSize` returns the first non-null size scanning from
most recent to oldest, and null when every observation is null; its two
written fallback tiers are extensionally equal, so it coincides with the
single rule "most recent non-null size, else null"; the spec's two listed
histories resolve to `Small` and to null. -/
theorem C4_resolveTeamSize_first_nonnull :
    (∀ h : List SizeObs, sizeTier1 h = sizeTier2 h)
    ∧ (∀ h : List SizeObs, resolveTeamSize h = specResolveSize h)
    ∧ (∀ h : List SizeObs, (∀ o ∈ h, o.size = none) → resolveTeamSize h = none)
    ∧ resolveTeamSize c4hist1 = some Size.Small
    ∧ resolveTeamSize c4hist2 = none := by
  refine ⟨fun h => rfl, fun h => ?_, fun h hall => ?_, by decide, by decide⟩
  · rw [resolveTeamSize_eq_tier1, sizeTier1_eq_spec]
  · rw [resolveTeamSize_eq_tier1, sizeTier1_eq_spec]
    exact specResolveSize_none h hall

/-- C4 exercised at the spec's two concrete histories. -/
theorem C4_witness :
    resolveTeamSize c4hist1 = specResolveSize c4hist1 ∧ resolveTeamSize c4hist2 = none :=
  ⟨C4_resolveTeamSize_first_nonnull.2.1 c4hist1,
   C4_resolveTeamSize_first_nonnull.2.2.1 c4hist2 (by decide)⟩

/-- C5: with a concrete size filter, no team whose resolved size is null
appears in the output. -/
theorem C5_size_filter_excludes_unresolved (rows : List Row) (f : Filters) (s : Size)
    (hsz : f.size = some s) (e : RankEntry) (he : e ∈ teamRankings rows f) :
    e.size_final ≠ none := by
  rcases rankingsPreSort_sizeFilter hsz (mem_teamRankings.1 he) with ⟨sf, hsf, _⟩
  rw [hsf]
  simp

/-- C5 exercised at a concrete Small-filtered ranking. -/
theorem C5_witness : (toEntry c5agg).size_final ≠ none :=
  C5_size_filter_excludes_unresolved [c5row1, c5row2] c5filters .Small rfl (toEntry c5agg)
    (by rw [show teamRankings [c5row1, c5row2] c5filters = [toEntry c5agg] from rfl]
        exact List.mem_singleton_self _)

/-- C6: a group with exactly one distinct competition is excluded whenever
the minimum-events filter is on (`requireTwoPlus = true`, the default of
`DEFAULT_FILTERS`), and included when it is lowered (with the size filter
at `Any`). -/
theorem C6_minimum_events_filter (rows : List Row) (gk : String) (a : Agg)
    (hget : alGet (buildAgg rows) gk = some a) (hone : a.compScores.length = 1) :
    (∀ f : Filters, f.requireTwoPlus = true → ∀ e ∈ teamRankings rows f, e.key ≠ gk)
    ∧ (∀ f : Filters, f.requireTwoPlus = false → f.size = none →
        ∃ e ∈ teamRankings rows f, e.key = gk ∧ e.comps = 1)
    ∧ DEFAULT_FILTERS.requireTwoPlus = true := by
  have inv := buildAgg_inv rows
  refine ⟨?_, ?_, rfl⟩
  · intro f hrt e he hkey
    have hpre := mem_teamRankings.1 he
    rcases mem_rankingsPreSort hpre with ⟨p, hp, hep⟩
    have h2 := rankingsPreSort_twoPlus hrt hpre
    have hk1 : p.1 = gk := by
      rw [hep, toEntry_key, inv.keyEq p hp] at hkey
      exact hkey
    have h3 := mem_buildAgg_get hp
    rw [hk1, hget] at h3
    injection h3 with h4
    have hc : e.comps = 1 := by
      rw [hep, toEntry_comps, ← h4, hone]
    rw [hc] at h2
    omega
  · intro f hrt hsz
    have hmem : (gk, a) ∈ buildAgg rows := alGet_mem hget
    have hkey : a.key = gk := inv.keyEq (gk, a) hmem
    refine ⟨toEntry a, ?_, ?_, ?_⟩
    · exact mem_teamRankings.2 (rankingsPreSort_mem_of hrt hsz (p := (gk, a)) hmem)
    · rw [toEntry_key, hkey]
    · rw [toEntry_comps, hone]

/-- C6 exercised at a concrete single-competition team. -/
theorem C6_witness :
    (∀ e ∈ teamRankings [c6row] DEFAULT_FILTERS, e.key ≠ "prog__solo__L4 Senior")
    ∧ ∃ e ∈ teamRankings [c6row] c6filters,
        e.key = "prog__solo__L4 Senior" ∧ e.comps = 1 :=
  ⟨(C6_minimum_events_filter [c6row] "prog__solo__L4 Senior" c6agg rfl rfl).1
      DEFAULT_FILTERS rfl,
   (C6_minimum_events_filter [c6row] "prog__solo__L4 Senior" c6agg rfl rfl).2.1
      c6filters rfl rfl⟩

/-- C7, counterexample: the division text `"d2"` contains `d2` as a
separate word but is not flagged D2, and `"flex l3"` contains `flex` as a
separate word but is not flagged Flex — the separate-word reading is
false in both direction-defining cases. -/
theorem C7_counterexample :
    inferIsD2FromDivision "d2" = false ∧ containsWord "d2" "d2" = true ∧
    inferIsFlexFromDivision "flex l3" = false ∧ containsWord "flex" "flex l3" = true := by
  refine ⟨by decide, by decide, by decide, by decide⟩

/-- C7 as amended: the D2 flag is true iff the normalized division text
contains `d2` immediately preceded or immediately followed by a space
(a substring test, not separate-word containment), and the Flex flag is
true iff the normalized text contains `flex` immediately preceded by a
space. -/
theorem C7_amended_flag_iff_space_adjacent (d : String) :
    (inferIsD2FromDivision d = true ↔
      (∃ l r, (normalize d).data = l ++ " d2".data ++ r) ∨
      (∃ l r, (normalize d).data = l ++ "d2 ".data ++ r))
    ∧ (inferIsFlexFromDivision d = true ↔
      ∃ l r, (normalize d).data = l ++ " flex".data ++ r) := by
  constructor
  · simp only [inferIsD2FromDivision, includesStr, Bool.or_eq_true, containsList_iff]
  · simp only [inferIsFlexFromDivision, includesStr, containsList_iff]

/-- C7 amended claim exercised at a concrete flagged text. -/
theorem C7_amended_witness :
    (∃ l r, (normalize "l3 xd2 small").data = l ++ " d2".data ++ r) ∨
    (∃ l r, (normalize "l3 xd2 small").data = l ++ "d2 ".data ++ r) :=
  (C7_amended_flag_iff_space_adjacent "l3 xd2 small").1.1 (by decide)

/-- C8: a record with an empty track or an empty trimmed program or team
name leaves the group map untouched, and every output entry carries a
non-empty program, team and bucket, coming from a group whose track label
is non-empty. -/
theorem C8_unclassifiable_rows_excluded :
    (∀ (m : List (String × Agg)) (r : Row),
      programOf r = "" ∨ teamOf r = "" ∨ trackOf r = "" → step m r = m)
    ∧ (∀ (rows : List Row) (f : Filters) (e : RankEntry), e ∈ teamRankings rows f →
        e.program ≠ "" ∧ e.team ≠ "" ∧ e.bucket ≠ "" ∧
        ∃ a : Agg, (e.key, a) ∈ buildAgg rows ∧ e = toEntry a ∧ a.track ≠ "") := by
  constructor
  · intro m r hdisj
    apply step_eq_skip
    intro ht
    rcases (includedRow_iff r).1 ht with ⟨h1, h2, h3⟩
    rcases hdisj with h | h | h
    exacts [h1 h, h2 h, h3 h]
  · intro rows f e he
    rcases mem_rankingsPreSort (mem_teamRankings.1 he) with ⟨p, hp, hep⟩
    have inv := buildAgg_inv rows
    have g := inv.present p.1 p.2 (mem_buildAgg_get hp)
    have hkey := inv.keyEq p hp
    refine ⟨?_, ?_, ?_, p.2, ?_, hep, g.trackNe⟩
    · rw [hep, toEntry_program]
      exact g.progNe
    · rw [hep, toEntry_team]
      exact g.teamNe
    · rw [hep, toEntry_bucket]
      cases hrs : resolveTeamSize (sortByWeekendDesc p.2.rowsByWeekendDesc) with
      | none => exact g.trackNe
      | some s => exact append_ne_empty_left (append_ne_empty_left g.trackNe)
    · rw [hep, toEntry_key, hkey]
      exact hp

/-- C8 exercised at a concrete dropped row and a concrete surfaced team. -/
theorem C8_witness :
    step [] c8badRow = [] ∧
    ((toEntry c8agg).program ≠ "" ∧ (toEntry c8agg).team ≠ "" ∧ (toEntry c8agg).bucket ≠ "" ∧
      ∃ a : Agg, ((toEntry c8agg).key, a) ∈ buildAgg [c8goodRow] ∧
        toEntry c8agg = toEntry a ∧ a.track ≠ "") :=
  ⟨C8_unclassifiable_rows_excluded.1 [] c8badRow (Or.inr (Or.inr (by decide))),
   C8_unclassifiable_rows_excluded.2 [c8goodRow] c8filters (toEntry c8agg)
     (by rw [show teamRankings [c8goodRow] c8filters = [toEntry c8agg] from rfl]
         exact List.mem_singleton_self _)⟩

/-- C9: the output is sorted by non-increasing average, entries with equal
averages keep the relative order they had before the sort (stable sort),
and rerunning the aggregation on the same rows and filters yields the
identical output. -/
theorem C9_sorted_stable_deterministic (rows : List Row) (f : Filters) :
    (teamRankings rows f).Pairwise (fun a b => b.avg ≤ a.avg)
    ∧ (∀ a b : RankEntry, [a, b].Sublist (rankingsPreSort rows f) → a.avg = b.avg →
        [a, b].Sublist (teamRankings rows f))
    ∧ teamRankings rows f = teamRankings rows f := by
  refine ⟨sortByAvgDesc_sorted _, ?_, rfl⟩
  intro a b hab heq
  exact sortByAvgDesc_stable hab (le_of_eq heq.symm)

/-- C9 exercised at two concrete equal-average teams: their pre-sort order
survives the sort. -/
theorem C9_witness :
    [toEntry c9aggA, toEntry c9aggB].Sublist (teamRankings [c9rowA, c9rowB] c9filters) :=
  (C9_sorted_stable_deterministic [c9rowA, c9rowB] c9filters).2.1 _ _
    (by rw [show rankingsPreSort [c9rowA, c9rowB] c9filters =
            [toEntry c9aggA, toEntry c9aggB] from rfl])
    rfl

/-- C10: every output entry counts at least one competition, so the
zero-events default of the average computation is never surfaced — each
surfaced average is the quotient of the retained scores by the (positive)
competition count. -/
theorem C10_no_zero_event_groups_surfaced (rows : List Row) (f : Filters) (e : RankEntry)
    (he : e ∈ teamRankings rows f) :
    1 ≤ e.comps ∧
    ∃ a : Agg, e = toEntry a ∧
      e.avg = ((a.compScores.map (fun p => p.2)).sum) / (e.comps : ℚ) := by
  rcases mem_rankingsPreSort (mem_teamRankings.1 he) with ⟨p, hp, hep⟩
  have g := (buildAgg_inv rows).present p.1 p.2 (mem_buildAgg_get hp)
  have hlen : 0 < p.2.compScores.length := List.length_pos.2 g.csNe
  constructor
  · rw [hep, toEntry_comps]
    exact hlen
  · refine ⟨p.2, hep, ?_⟩
    rw [hep, toEntry_avg, toEntry_comps, if_neg (by omega)]

/-- C10 exercised at a concrete single-competition team surfaced with the
minimum-events filter lowered. -/
theorem C10_witness :
    1 ≤ (toEntry c10agg).comps ∧
    ∃ a : Agg, toEntry c10agg = toEntry a ∧
      (toEntry c10agg).avg =
        ((a.compScores.map (fun p => p.2)).sum) / (((toEntry c10agg).comps : ℕ) : ℚ) :=
  C10_no_zero_event_groups_surfaced [c10row] c10filters (toEntry c10agg)
    (by rw [show teamRankings [c10row] c10filters = [toEntry c10agg] from rfl]
        exact List.mem_singleton_self _)

end EliteCheer
